import Mathlib

/-!
Formal model of the core of `pairs_trading_bot.py`.

The script has three core functions:

* `check_cointegration(series1, series2)` — OLS hedge ratio, residual spread,
  ADF stationarity p-value;
* `calculate_zscore(series, window)` — rolling z-score of the spread;
* `backtest(spread, z_score, entry_threshold, exit_threshold)` — positions
  DataFrame with columns Long, Short, Total.

Series are embedded positionally: a pandas Series of floats becomes a
`List ℚ` (every finite float is a rational), and a float series that may
contain NaN becomes a `List (Option ℚ)` with `none` for NaN.  Pandas
comparisons against NaN are falsy, which the embedding reproduces
explicitly.  A DataFrame index is carried as a separate list where it
matters (the `spread` argument of `backtest` is used only for its index).

The internals of the statistical libraries are embedded as follows.
`sm.OLS` on the full-rank design `[const, series1]` returns the unique
least-squares coefficients; the embedding uses the closed form of the
slope and proves the minimising characterisation.  `sm.add_constant`
skips adding an intercept only when the input column is constant AND
nonzero (`np.ptp(s) == 0 and np.any(s != 0)`), in which case
`model.params.iloc[1]` is an out-of-bounds access; an all-zero column
keeps the intercept, the rank-deficient design `[const, zeros]` is
fitted by pseudoinverse without raising, and the reported minimum-norm
slope is exactly `0.0`.  `adfuller`
rejects a constant input and a sample too short for its lag selection
(`maxlag = min(nobs // 2 - ntrend - 1, ...) < 0` for `nobs ≤ 3` with
regression "c"), and otherwise returns the MacKinnon approximate p-value:
1 above `tau_max_c`, 0 below `tau_min_c`, and otherwise the standard
normal CDF of a polynomial in the test statistic.  The test statistic and
the polynomial are kept as parameters of the model (`AdfModel`), since no
verified property depends on their values.
-/

namespace PairsBot

/-- Position state of one timestamp, as `plot_results` reads it off the
positions frame (`Total == 1` is a long-spread signal, `Total == -1` a
short-spread signal, anything else is flat). -/
inductive PState
  | Long
  | Short
  | Flat
deriving DecidableEq

/-- One row of the positions DataFrame built by `backtest`:
`Long = (z < -entry) * 1.0`, `Short = (z > entry) * -1.0`,
`Total = Long + Short`. -/
structure PosRow where
  long : ℚ
  short : ℚ
  total : ℚ
deriving DecidableEq

/-- Value of the Long column at one timestamp:
`(z_score < -entry_threshold) * 1.0`.  A NaN z-score compares false. -/
def longVal (entry : ℚ) (z : Option ℚ) : ℚ :=
  match z with
  | none => 0
  | some v => if v < -entry then 1 else 0

/-- Value of the Short column at one timestamp:
`(z_score > entry_threshold) * -1.0`.  A NaN z-score compares false. -/
def shortVal (entry : ℚ) (z : Option ℚ) : ℚ :=
  match z with
  | none => 0
  | some v => if v > entry then -1 else 0

/-- The positions row built for one timestamp. -/
def posRow (entry : ℚ) (z : Option ℚ) : PosRow :=
  { long := longVal entry z
    short := shortVal entry z
    total := longVal entry z + shortVal entry z }

/-- Model of `backtest(spread, z_score, entry_threshold, exit_threshold)`.
The result is the positions DataFrame: its index (taken from `spread`,
whose values are never read) together with one `PosRow` per z-score entry.
The source never reads `exit_threshold`; the parameter is kept to mirror
the signature. -/
def backtest (spread : List (ℕ × ℚ)) (z_score : List (Option ℚ))
    (entry_threshold exit_threshold : ℚ) : List ℕ × List PosRow :=
  (spread.map Prod.fst, z_score.map (posRow entry_threshold))

/-- State encoded by a positions row, following the reading used by
`plot_results` (buy where `Total == 1`, sell where `Total == -1`). -/
def rowState (r : PosRow) : PState :=
  if r.total = 1 then PState.Long
  else if r.total = -1 then PState.Short
  else PState.Flat

/-- The classification policy as the specification words it: Long iff
`z < -entry`, Short iff `z > entry`, Flat otherwise, and Flat on an
undefined z-score. -/
def specState (entry : ℚ) (z : Option ℚ) : PState :=
  match z with
  | none => PState.Flat
  | some v => if v < -entry then PState.Long
    else if v > entry then PState.Short
    else PState.Flat

/-- Number of rows whose encoded state is Long or Short. -/
def activeStateCount (rows : List PosRow) : ℕ :=
  rows.countP fun r => decide (rowState r ≠ PState.Flat)

/-- Number of rows in which the Long column or the Short column is set. -/
def activeColCount (rows : List PosRow) : ℕ :=
  rows.countP fun r => decide (r.long ≠ 0 ∨ r.short ≠ 0)

/-- A double-precision float as it can appear in the z-score series: NaN,
an infinity, or a finite value.  Finite values are kept in `ℝ` because the
z-score divides by a square root. -/
inductive FV
  | nan
  | posInf
  | negInf
  | val (x : ℝ)

/-- Trailing window of the `window` points ending at index `t`, the window
pandas `rolling(window)` aggregates at position `t`. -/
def winL (l : List ℚ) (w t : ℕ) : List ℚ :=
  (l.drop (t + 1 - w)).take w

/-- Rolling mean of the window ending at `t` (value of
`series.rolling(window).mean()` there, when it is defined). -/
def wmean (l : List ℚ) (w t : ℕ) : ℚ :=
  (winL l w t).sum / w

/-- Rolling sample variance (pandas default `ddof = 1`) of the window
ending at `t`; the square of `series.rolling(window).std()` there. -/
def wvar (l : List ℚ) (w t : ℕ) : ℚ :=
  ((winL l w t).map fun x => (x - wmean l w t) ^ 2).sum / ((w : ℚ) - 1)

/-- One entry of `(series - r_mean) / r_std`, with float semantics made
explicit.  The entry is NaN when the rolling statistics are NaN — fewer
than `window` observations, or `window < 2`, where the sample standard
deviation of fewer than two points is NaN — since subtraction by and
division by NaN propagate NaN.  When `r_std == 0.0`, float division gives
NaN on a zero numerator and a signed infinity otherwise.  Elsewhere the
value is the finite float `(x - mean) / sqrt var`. -/
noncomputable def zEntry (l : List ℚ) (w t : ℕ) : FV :=
  if t + 1 < w ∨ w < 2 then FV.nan
  else if wvar l w t = 0 then
    (if l.getD t 0 - wmean l w t = 0 then FV.nan
     else if 0 < l.getD t 0 - wmean l w t then FV.posInf else FV.negInf)
  else FV.val ((l.getD t 0 - wmean l w t) / Real.sqrt (wvar l w t))

/-- Model of `calculate_zscore(series, window)`: one float entry per input
timestamp. -/
noncomputable def calculate_zscore (l : List ℚ) (w : ℕ) : List FV :=
  (List.range l.length).map (zEntry l w)

/-- Definedness contract of the rolling z-score: same length as the input;
NaN on the first `window - 1` positions; on every later position, never an
infinity, and NaN exactly where the sample variance of the trailing window
(equivalently its sample standard deviation) is zero. -/
def ZscoreSpec (l : List ℚ) (w : ℕ) : Prop :=
  (calculate_zscore l w).length = l.length ∧
  (∀ t, t < l.length → t + 1 < w → (calculate_zscore l w).getD t FV.nan = FV.nan) ∧
  (∀ t, t < l.length → w ≤ t + 1 →
    (calculate_zscore l w).getD t FV.nan ≠ FV.posInf ∧
    (calculate_zscore l w).getD t FV.nan ≠ FV.negInf ∧
    ((calculate_zscore l w).getD t FV.nan = FV.nan ↔ wvar l w t = 0))

/-- Library internals of the ADF test that no verified property depends
on: the test statistic (a float, hence a rational), the MacKinnon tau
polynomial (including its small-p / large-p branch), and the numeric
standard normal CDF used by `mackinnonp`. -/
structure AdfModel where
  stat : List ℚ → ℚ
  tauPoly : ℚ → ℚ
  normCdf : ℚ → ℝ

/-- Constant-column test of `adfuller` (`x.max() == x.min()`). -/
def isConstL (l : List ℚ) : Bool :=
  l.all fun x => decide (x = l.headI)

/-- Skip test of `sm.add_constant` (via `add_trend`): the intercept column
is not added exactly when the input column is constant and nonzero
(`np.ptp(s) == 0 and np.any(s != 0)`).  An all-zero column does get an
intercept. -/
def safeIsConst (l : List ℚ) : Bool :=
  isConstL l && decide (l.headI ≠ 0)

/-- Upper clamp point `tau_max_c[0]` of the MacKinnon table for
regression "c", one series. -/
def tauMaxC : ℚ := 274 / 100

/-- Lower clamp point `tau_min_c[0]` of the MacKinnon table for
regression "c", one series. -/
def tauMinC : ℚ := -1883 / 100

/-- MacKinnon approximate p-value of an ADF test statistic: clamped to 1
above `tau_max_c` and to 0 below `tau_min_c`, otherwise the standard
normal CDF of a polynomial in the statistic. -/
def mackinnonp (M : AdfModel) (stat : ℚ) : ℝ :=
  if tauMaxC < stat then 1
  else if stat < tauMinC then 0
  else M.normCdf (M.tauPoly stat)

/-- The ways `check_cointegration` can raise instead of returning: the
script defines no exception types of its own, these are the untyped
library failures it lets escape. -/
inductive CoErr
  | emptyInput
  | indexOutOfBounds
  | constantInput
  | shortSample
deriving DecidableEq

/-- Dot product of two equal-length series. -/
def dotL (x y : List ℚ) : ℚ :=
  (List.zipWith (· * ·) x y).sum

/-- The OLS slope `model.params.iloc[1]` of regressing `b` on `[const, a]`
(closed form of the least-squares coefficient; theorem
`check_cointegration_ols_spread` proves it is the unique minimiser of the
residual sum of squares when `a` is not constant).  For an all-zero `a` —
the only rank-deficient design that reaches the regression, since a
nonzero constant column skips the intercept instead — numerator and
denominator are both zero, and the convention `0 / 0 = 0` agrees with the
minimum-norm pseudoinverse slope `0.0` that statsmodels reports. -/
def ols_slope (a b : List ℚ) : ℚ :=
  ((a.length : ℚ) * dotL a b - a.sum * b.sum) /
    ((a.length : ℚ) * dotL a a - a.sum * a.sum)

/-- The residual spread `series2 - hedge_ratio * series1`, with no
intercept subtracted. -/
def residSpread (h : ℚ) (s1 s2 : List ℚ) : List ℚ :=
  List.zipWith (fun y x => y - h * x) s2 s1

/-- Model of `adfuller(spread)[1]`: raises on a constant input
("Invalid input, x is constant"), raises when the sample is too short for
the default lag selection (length at most 3 for regression "c"), and
otherwise returns the MacKinnon p-value of the test statistic. -/
def adfuller_p (M : AdfModel) (x : List ℚ) : Except CoErr ℝ :=
  if isConstL x then .error .constantInput
  else if x.length ≤ 3 then .error .shortSample
  else .ok (mackinnonp M (M.stat x))

/-- Model of `check_cointegration(series1, series2)`.  `sm.add_constant`
skips adding the intercept column only when `series1` is constant and
nonzero, and `model.params.iloc[1]` is then out of bounds; otherwise
(including an all-zero `series1`, which keeps its intercept and gets the
minimum-norm slope 0) the hedge ratio is the OLS slope, the spread is
`series2 - hedge_ratio * series1`, and the ADF test runs on the spread. -/
def check_cointegration (M : AdfModel) (series1 series2 : List ℚ) :
    Except CoErr (ℝ × ℚ × List ℚ) :=
  if series1.isEmpty ∨ series2.isEmpty then .error .emptyInput
  else if safeIsConst series1 then .error .indexOutOfBounds
  else
    (adfuller_p M (residSpread (ols_slope series1 series2) series1 series2)).map
      fun p => (p, ols_slope series1 series2,
        residSpread (ols_slope series1 series2) series1 series2)

/-- Residual sum of squares of the regression of `s2` on `s1` with
intercept `a` and slope `b`. -/
def sse (s1 s2 : List ℚ) (a b : ℚ) : ℚ :=
  (List.zipWith (fun y x => (y - a - b * x) ^ 2) s2 s1).sum

/-- What C2 asserts of a returned hedge ratio `h` and spread `sp`: the
spread has the length of the inputs and is pointwise `series2 - h * series1`
(no intercept subtracted), and `h` is the slope of an OLS regression of
`series2` on `series1` with an intercept term — some intercept makes
`(intercept, h)` minimise the residual sum of squares, and whenever
`series1` is not constant (precisely when the regression has a unique
solution) every minimising pair has slope `h`.  The only constant
`series1` that reaches a successful return is the all-zero series, where
every slope minimises and statsmodels reports the minimum-norm slope 0,
which the returned `h` equals. -/
def OlsSpreadSpec (s1 s2 : List ℚ) (h : ℚ) (sp : List ℚ) : Prop :=
  sp.length = s1.length ∧
  (∀ i, i < sp.length → sp.getD i 0 = s2.getD i 0 - h * s1.getD i 0) ∧
  (∃ a, ∀ a2 b2 : ℚ, sse s1 s2 a h ≤ sse s1 s2 a2 b2) ∧
  (isConstL s1 = false →
    ∀ a2 b2 : ℚ, (∀ a3 b3 : ℚ, sse s1 s2 a2 b2 ≤ sse s1 s2 a3 b3) → b2 = h)

/-- What C8 asserts of a successful call: a p-value in `[0, 1]` and a
spread whose length is that of the inputs. -/
def PValueSpec (M : AdfModel) (s1 s2 : List ℚ) : Prop :=
  ∃ p sp, check_cointegration M s1 s2 = .ok (p, ols_slope s1 s2, sp) ∧
    0 ≤ p ∧ p ≤ 1 ∧ sp.length = s1.length

/-- The standard normal CDF, as the cumulative measure of the standard
Gaussian; scipy computes this function numerically as `norm.cdf`. -/
noncomputable def stdNormCdf (q : ℚ) : ℝ :=
  ((ProbabilityTheory.gaussianReal 0 1) (Set.Iic (q : ℝ))).toReal

/-- A concrete `AdfModel` with trivial internals, for evaluating the parts
of `check_cointegration` that do not depend on them. -/
def M0 : AdfModel :=
  ⟨fun _ => 0, id, fun _ => 0⟩

/-- The `AdfModel` whose normal CDF is the genuine Gaussian CDF. -/
noncomputable def Mgauss : AdfModel :=
  ⟨fun _ => 0, id, stdNormCdf⟩

/-! ## Theorems -/

lemma rowState_posRow (e : ℚ) (he : 0 ≤ e) (z : Option ℚ) :
    rowState (posRow e z) = specState e z := by
  cases z with
  | none => norm_num [posRow, longVal, shortVal, rowState, specState]
  | some v =>
    by_cases h1 : v < -e
    · have h2 : ¬ v > e := by linarith
      norm_num [posRow, longVal, shortVal, rowState, specState, h1, h2]
    · by_cases h2 : v > e
      · norm_num [posRow, longVal, shortVal, rowState, specState, h1, h2]
      · norm_num [posRow, longVal, shortVal, rowState, specState, h1, h2]

/-- C1: with `entryThreshold > exitThreshold ≥ 0`, `backtest` classifies
each timestamp memorylessly — Long exactly where `z < -entry`, Short
exactly where `z > entry`, Flat otherwise (NaN included) — and the
`exit_threshold` argument has no effect on the result. -/
theorem backtest_memoryless_spec (spread : List (ℕ × ℚ))
    (z_score : List (Option ℚ)) (entry_threshold exit_threshold x2 : ℚ)
    (hx : 0 ≤ exit_threshold) (hex : exit_threshold < entry_threshold) :
    ((backtest spread z_score entry_threshold exit_threshold).2.map rowState
      = z_score.map (specState entry_threshold)) ∧
    backtest spread z_score entry_threshold x2
      = backtest spread z_score entry_threshold exit_threshold := by
  have he : (0:ℚ) ≤ entry_threshold := le_of_lt (lt_of_le_of_lt hx hex)
  refine ⟨?_, rfl⟩
  show (z_score.map (posRow entry_threshold)).map rowState = _
  rw [List.map_map]
  exact List.map_congr_left fun z _ => rowState_posRow entry_threshold he z

/-- Witness for C1 at Scenario 3 of the spec:
`zscore = [-3, -1, 0, 1, 3]`, entry `2.0`, exit `0.5` gives
`[Long, Flat, Flat, Flat, Short]`. -/
theorem backtest_memoryless_spec_witness :
    (0:ℚ) ≤ 1/2 ∧ (1/2:ℚ) < 2 ∧
    ((backtest [] [some (-3), some (-1), some 0, some 1, some 3] 2
        (1/2)).2.map rowState
      = [PState.Long, PState.Flat, PState.Flat, PState.Flat, PState.Short]) := by
  refine ⟨by norm_num, by norm_num, ?_⟩
  rw [(backtest_memoryless_spec [] [some (-3), some (-1), some 0, some 1, some 3]
    2 (1/2) (1/2) (by norm_num) (by norm_num)).1]
  decide

/-- C9: for arbitrary thresholds (no precondition at all), every row of the
positions output has `Long ∈ {0, 1}`, `Short ∈ {-1, 0}`,
`Total = Long + Short` and `Total ∈ {-1, 0, 1}`. -/
theorem backtest_row_invariants (spread : List (ℕ × ℚ))
    (z_score : List (Option ℚ)) (entry_threshold exit_threshold : ℚ)
    (r : PosRow) (hr : r ∈ (backtest spread z_score entry_threshold exit_threshold).2) :
    (r.long = 0 ∨ r.long = 1) ∧ (r.short = -1 ∨ r.short = 0) ∧
    r.total = r.long + r.short ∧ (r.total = -1 ∨ r.total = 0 ∨ r.total = 1) := by
  obtain ⟨z, _, rfl⟩ := List.mem_map.1 hr
  cases z with
  | none => norm_num [posRow, longVal, shortVal]
  | some v =>
    by_cases h1 : v < -entry_threshold <;> by_cases h2 : v > entry_threshold <;>
      norm_num [posRow, longVal, shortVal, h1, h2]

/-- Witness for C9 at a concrete input. -/
theorem backtest_row_invariants_witness :
    (⟨1, 0, 1⟩ : PosRow) ∈ (backtest [] [some (-3)] 2 (1/2)).2 ∧
    (((1:ℚ) = 0 ∨ (1:ℚ) = 1) ∧ ((0:ℚ) = -1 ∨ (0:ℚ) = 0) ∧
      (1:ℚ) = 1 + 0 ∧ ((1:ℚ) = -1 ∨ (1:ℚ) = 0 ∨ (1:ℚ) = 1)) :=
  ⟨by norm_num [backtest, posRow, longVal, shortVal],
    backtest_row_invariants [] [some (-3)] 2 (1/2) ⟨1, 0, 1⟩
      (by norm_num [backtest, posRow, longVal, shortVal])⟩

lemma longVal_ne_zero (e v : ℚ) : longVal e (some v) ≠ 0 ↔ v < -e := by
  by_cases h : v < -e <;> norm_num [longVal, h]

lemma shortVal_ne_zero (e v : ℚ) : shortVal e (some v) ≠ 0 ↔ v > e := by
  by_cases h : v > e <;> norm_num [shortVal, h]

/-- C6: for a fixed z-score series, raising the entry threshold never
increases the number of timestamps classified Long or Short.  The first
conjunct counts rows whose Long or Short column is set and holds for all
thresholds; the second counts rows whose encoded state is not Flat and
holds on the contractual domain `0 ≤ e1`. -/
theorem backtest_threshold_monotone (spread : List (ℕ × ℚ))
    (z_score : List (Option ℚ)) (e1 e2 exit_threshold : ℚ) (h12 : e1 ≤ e2) :
    (activeColCount (backtest spread z_score e2 exit_threshold).2
      ≤ activeColCount (backtest spread z_score e1 exit_threshold).2) ∧
    (0 ≤ e1 →
      activeStateCount (backtest spread z_score e2 exit_threshold).2
        ≤ activeStateCount (backtest spread z_score e1 exit_threshold).2) := by
  constructor
  · show (z_score.map (posRow e2)).countP _ ≤ (z_score.map (posRow e1)).countP _
    rw [List.countP_map, List.countP_map]
    refine List.countP_mono_left fun z _ h => ?_
    simp only [Function.comp_apply, decide_eq_true_eq] at h ⊢
    cases z with
    | none => simp [posRow, longVal, shortVal] at h
    | some v =>
      simp only [posRow] at h ⊢
      rcases h with h | h
      · exact Or.inl ((longVal_ne_zero e1 v).2 (by
          have := (longVal_ne_zero e2 v).1 h; linarith))
      · exact Or.inr ((shortVal_ne_zero e1 v).2 (by
          have := (shortVal_ne_zero e2 v).1 h; linarith))
  · intro h0
    have h02 : (0:ℚ) ≤ e2 := le_trans h0 h12
    show (z_score.map (posRow e2)).countP _ ≤ (z_score.map (posRow e1)).countP _
    rw [List.countP_map, List.countP_map]
    refine List.countP_mono_left fun z _ h => ?_
    simp only [Function.comp_apply, decide_eq_true_eq] at h ⊢
    rw [rowState_posRow e2 h02] at h
    rw [rowState_posRow e1 h0]
    cases z with
    | none => simp [specState] at h
    | some v =>
      by_cases hv : v < -e2
      · have hv1 : v < -e1 := by linarith
        simp [specState, hv1]
      · by_cases hv2 : v > e2
        · have hg : v > e1 := by linarith
          have hnv : ¬ v < -e1 := by linarith
          simp [specState, hnv, hg]
        · exact absurd (by simp [specState, hv, hv2]) h

/-- Witness for C6 at concrete thresholds. -/
theorem backtest_threshold_monotone_witness :
    (1:ℚ) ≤ 2 ∧
    ((activeColCount (backtest [] [some (-3), some (3/2)] 2 0).2
        ≤ activeColCount (backtest [] [some (-3), some (3/2)] 1 0).2) ∧
      (0 ≤ (1:ℚ) →
        activeStateCount (backtest [] [some (-3), some (3/2)] 2 0).2
          ≤ activeStateCount (backtest [] [some (-3), some (3/2)] 1 0).2)) :=
  ⟨by norm_num,
    backtest_threshold_monotone [] [some (-3), some (3/2)] 1 2 0 (by norm_num)⟩

/-- C10: the position values depend only on the z-score series and the
thresholds; the `spread` argument is read only for its index.  Two spread
series with the same index give identical outputs. -/
theorem backtest_spread_irrelevant (s1 s2 : List (ℕ × ℚ))
    (z_score : List (Option ℚ)) (entry_threshold exit_threshold : ℚ)
    (hidx : s1.map Prod.fst = s2.map Prod.fst) :
    backtest s1 z_score entry_threshold exit_threshold
      = backtest s2 z_score entry_threshold exit_threshold := by
  unfold backtest
  rw [hidx]

/-- Witness for C10: two spreads with equal index but different values. -/
theorem backtest_spread_irrelevant_witness :
    ([((0:ℕ), (5:ℚ))].map Prod.fst = [((0:ℕ), (7:ℚ))].map Prod.fst) ∧
    backtest [(0, 5)] [some 1] 1 0 = backtest [(0, 7)] [some 1] 1 0 :=
  ⟨by decide, backtest_spread_irrelevant [(0, 5)] [(0, 7)] [some 1] 1 0 (by decide)⟩

lemma calculate_zscore_length (l : List ℚ) (w : ℕ) :
    (calculate_zscore l w).length = l.length := by
  simp [calculate_zscore]

lemma calculate_zscore_getD (l : List ℚ) (w t : ℕ) (ht : t < l.length) :
    (calculate_zscore l w).getD t FV.nan = zEntry l w t := by
  unfold calculate_zscore
  rw [List.getD_eq_getElem?_getD, List.getElem?_map, List.getElem?_range ht]
  rfl

lemma winL_length (l : List ℚ) (w t : ℕ) (hwt : w ≤ t + 1) (ht : t < l.length) :
    (winL l w t).length = w := by
  simp only [winL, List.length_take, List.length_drop]
  omega

lemma winL_last_mem (l : List ℚ) (w t : ℕ) (hw1 : 1 ≤ w) (hwt : w ≤ t + 1)
    (ht : t < l.length) : l.getD t 0 ∈ winL l w t := by
  have hlen : (winL l w t).length = w := winL_length l w t hwt ht
  have hidx : w - 1 < (winL l w t).length := by omega
  have hidx2 : t + 1 - w + (w - 1) < l.length := by omega
  have hval : (winL l w t).get ⟨w - 1, hidx⟩ = l.getD t 0 := by
    show ((l.drop (t + 1 - w)).take w)[w - 1] = l.getD t 0
    rw [List.getElem_take, List.getElem_drop]
    rw [List.getD_eq_getElem?_getD, List.getElem?_eq_getElem (by omega : t < l.length)]
    have harg : t + 1 - w + (w - 1) = t := by omega
    simp [harg]
  exact hval ▸ List.get_mem _ _ _

lemma sum_of_nonneg_eq_zero {L : List ℚ} (h0 : L.sum = 0)
    (hnn : ∀ x ∈ L, 0 ≤ x) : ∀ x ∈ L, x = 0 := by
  induction L with
  | nil => simp
  | cons a L ih =>
    simp only [List.sum_cons] at h0
    have hnnL : ∀ x ∈ L, 0 ≤ x := fun x hx => hnn x (List.mem_cons_of_mem _ hx)
    have ha : 0 ≤ a := hnn a (List.mem_cons_self _ _)
    have hs : 0 ≤ L.sum := List.sum_nonneg hnnL
    intro x hx
    rcases List.mem_cons.1 hx with rfl | hx
    · linarith
    · exact ih (by linarith) hnnL x hx

lemma wvar_eq_zero_const (l : List ℚ) (w t : ℕ) (hw : 2 ≤ w)
    (h0 : wvar l w t = 0) : ∀ x ∈ winL l w t, x = wmean l w t := by
  have hw1 : ((w : ℚ) - 1) ≠ 0 := by
    have : (2:ℚ) ≤ (w : ℚ) := by exact_mod_cast hw
    linarith
  unfold wvar at h0
  rcases div_eq_zero_iff.1 h0 with h0 | h0
  · intro x hx
    have hmem : (x - wmean l w t) ^ 2 ∈ (winL l w t).map fun y => (y - wmean l w t) ^ 2 :=
      List.mem_map_of_mem _ hx
    have hz := sum_of_nonneg_eq_zero h0
      (fun y hy => by
        obtain ⟨u, _, rfl⟩ := List.mem_map.1 hy
        positivity) _ hmem
    have : x - wmean l w t = 0 := (pow_eq_zero_iff (by norm_num : (2:ℕ) ≠ 0)).1 hz
    linarith [sub_eq_zero.1 this]
  · exact absurd h0 hw1

/-- C3: for every spread series and contractual window `w ≥ 2`, the rolling
z-score has the length of the input, its first `w - 1` entries are NaN (the
explicit pandas missing value — no zero fill, no backfill), and each later
entry is a NaN — never an infinity — exactly when the trailing window has
sample standard deviation is zero, and is a defined value otherwise. -/
theorem calculate_zscore_definedness (l : List ℚ) (w : ℕ) (hw : 2 ≤ w) :
    ZscoreSpec l w := by
  refine ⟨calculate_zscore_length l w, ?_, ?_⟩
  · intro t ht hlt
    rw [calculate_zscore_getD l w t ht]
    unfold zEntry
    rw [if_pos (Or.inl hlt)]
  · intro t ht hge
    rw [calculate_zscore_getD l w t ht]
    have hcond : ¬ (t + 1 < w ∨ w < 2) := by omega
    by_cases hv : wvar l w t = 0
    · have hmem := winL_last_mem l w t (by omega) hge ht
      have hnum : l.getD t 0 - wmean l w t = 0 :=
        sub_eq_zero.2 (wvar_eq_zero_const l w t hw hv _ hmem)
      unfold zEntry
      rw [if_neg hcond, if_pos hv, if_pos hnum]
      exact ⟨by simp, by simp, by simp [hv]⟩
    · unfold zEntry
      rw [if_neg hcond, if_neg hv]
      exact ⟨by simp, by simp, by simp [hv]⟩

/-- Witness for C3 at a concrete window and series. -/
theorem calculate_zscore_definedness_witness :
    2 ≤ 2 ∧ ZscoreSpec [1, 1, 2] 2 :=
  ⟨by norm_num, calculate_zscore_definedness [1, 1, 2] 2 (by norm_num)⟩

/-- C5 counterexample: at the Scenario named by the claim (window 2, spread of
length 1) the source raises nothing — `calculate_zscore` returns the
all-NaN series `[NaN]`; no `InvalidWindowError` exists anywhere in the
code. -/
theorem calculate_zscore_no_failure_len1 :
    calculate_zscore [(5:ℚ)] 2 = [FV.nan] := by
  have h : zEntry [(5:ℚ)] 2 0 = FV.nan := by
    unfold zEntry
    rw [if_pos (Or.inl (by norm_num))]
  simp [calculate_zscore, List.range_succ, h]

/-- C5 amended: `calculate_zscore` performs no window validation at all.
For every positive window that is below 2 or exceeds the series length,
it returns a series of the length of the input every entry of which is NaN,
rather than failing. -/
theorem calculate_zscore_no_validation (l : List ℚ) (w : ℕ) (_hw1 : 1 ≤ w)
    (h : w < 2 ∨ l.length < w) :
    (calculate_zscore l w).length = l.length ∧
    ∀ fv ∈ calculate_zscore l w, fv = FV.nan := by
  refine ⟨calculate_zscore_length l w, ?_⟩
  intro fv hfv
  obtain ⟨t, hmem, rfl⟩ := List.mem_map.1 hfv
  have ht : t < l.length := List.mem_range.1 hmem
  have hcond : t + 1 < w ∨ w < 2 := by omega
  unfold zEntry
  rw [if_pos hcond]

/-- Witness for the amended C5 at window 2, spread length 1. -/
theorem calculate_zscore_no_validation_witness :
    1 ≤ 2 ∧ (2 < 2 ∨ ([(5:ℚ)]).length < 2) ∧
    ((calculate_zscore [(5:ℚ)] 2).length = ([(5:ℚ)]).length ∧
      ∀ fv ∈ calculate_zscore [(5:ℚ)] 2, fv = FV.nan) :=
  ⟨by norm_num, Or.inr (by norm_num),
    calculate_zscore_no_validation [5] 2 (by norm_num) (Or.inr (by norm_num))⟩

lemma isConstL_iff (l : List ℚ) : isConstL l = true ↔ ∀ x ∈ l, x = l.headI := by
  simp [isConstL, List.all_eq_true]

lemma sum_of_const (l : List ℚ) (c : ℚ) (h : ∀ x ∈ l, x = c) :
    l.sum = l.length * c := by
  induction l with
  | nil => simp
  | cons a t ih =>
    have ha := h a (List.mem_cons_self _ _)
    have ht := ih fun x hx => h x (List.mem_cons_of_mem _ hx)
    simp only [List.sum_cons, List.length_cons, ht, ha]
    push_cast
    ring

lemma dotL_const_right (a b : List ℚ) (c : ℚ) (hlen : a.length = b.length)
    (h : ∀ x ∈ b, x = c) : dotL a b = c * a.sum := by
  induction a generalizing b with
  | nil => simp [dotL]
  | cons x xs ih =>
    cases b with
    | nil => simp at hlen
    | cons y ys =>
      have hy := h y (List.mem_cons_self _ _)
      have hys := ih ys (by simpa using hlen) fun u hu => h u (List.mem_cons_of_mem _ hu)
      simp only [dotL, List.zipWith_cons_cons, List.sum_cons] at hys ⊢
      rw [hys, hy]
      ring

lemma ols_slope_const_right (a b : List ℚ) (hlen : a.length = b.length)
    (h : isConstL b = true) : ols_slope a b = 0 := by
  have hc := (isConstL_iff b).1 h
  have hd := dotL_const_right a b b.headI hlen hc
  have hs := sum_of_const b b.headI hc
  unfold ols_slope
  rw [hd, hs, ← hlen]
  rw [show ((a.length : ℚ) * (b.headI * a.sum) - a.sum * (a.length * b.headI)) = 0 by ring]
  exact zero_div _

lemma residSpread_zero (s1 s2 : List ℚ) (hlen : s1.length = s2.length) :
    residSpread 0 s1 s2 = s2 := by
  induction s2 generalizing s1 with
  | nil => simp [residSpread]
  | cons y ys ih =>
    cases s1 with
    | nil => simp at hlen
    | cons x xs =>
      simp only [residSpread, List.zipWith_cons_cons] at ih ⊢
      rw [ih xs (by simpa using hlen)]
      norm_num

lemma dotL_zero_left (a : List ℚ) :
    (∀ x ∈ a, x = 0) → ∀ b : List ℚ, dotL a b = 0 := by
  induction a with
  | nil => intro _ b; simp [dotL]
  | cons x xs ih =>
    intro h b
    cases b with
    | nil => simp [dotL]
    | cons y ys =>
      have hx := h x (List.mem_cons_self _ _)
      have hys := ih (fun u hu => h u (List.mem_cons_of_mem _ hu)) ys
      simp only [dotL, List.zipWith_cons_cons, List.sum_cons] at hys ⊢
      rw [hys, hx]
      ring

lemma ols_slope_zero_left (a b : List ℚ) (h : ∀ x ∈ a, x = 0) :
    ols_slope a b = 0 := by
  have hd := dotL_zero_left a h b
  have hs : a.sum = 0 := by simpa using sum_of_const a 0 h
  unfold ols_slope
  rw [hd, hs, show ((a.length : ℚ) * 0 - 0 * b.sum) = 0 by ring]
  exact zero_div _

/-- C4 counterexample: a constant nonzero `series1` does make
`check_cointegration` fail synchronously, but with an out-of-bounds
parameter access (`model.params.iloc[1]`, after `sm.add_constant` skipped
the intercept column), not with a `DegenerateSeriesError` — the code
defines no such exception. -/
theorem check_cointegration_const_a_counterexample :
    check_cointegration M0 [5, 5, 5, 5, 5, 5] [1, 2, 3, 4, 5, 6]
      = .error CoErr.indexOutOfBounds := by
  rfl

/-- C4 amended: no `DegenerateSeriesError` exists in the code, and
zero-variance input does not uniformly fail.  A constant nonzero
`series1` makes `sm.add_constant` skip the intercept, so reading the
slope parameter hits an out-of-bounds access; an all-zero `series1`
keeps its intercept, the pseudoinverse fit reports the minimum-norm
slope 0, and the call returns normally (p-value, 0, `series2`) whenever
the ADF test accepts `series2`; a constant `series2` with non-constant
`series1` gives a zero hedge ratio, hence a constant spread, on which
the ADF test raises its constant-input error. -/
theorem check_cointegration_degenerate (M : AdfModel) (s1 s2 : List ℚ)
    (hlen : s1.length = s2.length) (hne : s1 ≠ []) :
    (safeIsConst s1 = true →
      check_cointegration M s1 s2 = .error CoErr.indexOutOfBounds) ∧
    (isConstL s1 = false → isConstL s2 = true →
      check_cointegration M s1 s2 = .error CoErr.constantInput) ∧
    (isConstL s1 = true → s1.headI = 0 → isConstL s2 = false → 4 ≤ s2.length →
      check_cointegration M s1 s2 = .ok (mackinnonp M (M.stat s2), 0, s2)) := by
  have hne1 : s1.isEmpty = false := by
    cases s1
    · exact absurd rfl hne
    · rfl
  have hne2 : s2.isEmpty = false := by
    cases s2
    · simp at hlen
      exact absurd hlen hne
    · rfl
  refine ⟨?_, ?_, ?_⟩
  · intro hc
    unfold check_cointegration
    rw [if_neg (by simp [hne1, hne2]), if_pos hc]
  · intro hc1 hc2
    unfold check_cointegration
    rw [if_neg (by simp [hne1, hne2]), if_neg (by simp [safeIsConst, hc1])]
    show (adfuller_p M (residSpread (ols_slope s1 s2) s1 s2)).map _ = _
    rw [ols_slope_const_right s1 s2 hlen hc2, residSpread_zero s1 s2 hlen]
    unfold adfuller_p
    rw [if_pos hc2]
    rfl
  · intro hc h0 hc2 hlen4
    have hall : ∀ x ∈ s1, x = 0 := fun x hx =>
      ((isConstL_iff s1).1 hc x hx).trans h0
    have hd0 : decide ((s1.headI : ℚ) ≠ 0) = false := by
      rw [h0]
      decide
    have hslope0 : ols_slope s1 s2 = 0 := ols_slope_zero_left s1 s2 hall
    have hlen3 : ¬ (s2.length ≤ 3) := by omega
    unfold check_cointegration
    rw [if_neg (by simp [hne1, hne2]), if_neg (by simp [safeIsConst, hd0])]
    show (adfuller_p M (residSpread (ols_slope s1 s2) s1 s2)).map _ = _
    simp only [hslope0, residSpread_zero s1 s2 hlen]
    unfold adfuller_p
    rw [if_neg (by simp [hc2]), if_neg hlen3]
    rfl

/-- Witness for the amended C4 at a concrete constant nonzero `series1`. -/
theorem check_cointegration_degenerate_witness :
    ([(5:ℚ), 5, 5].length = [(1:ℚ), 2, 3].length) ∧ ([(5:ℚ), 5, 5] ≠ []) ∧
    ((safeIsConst [(5:ℚ), 5, 5] = true →
        check_cointegration M0 [5, 5, 5] [1, 2, 3] = .error CoErr.indexOutOfBounds) ∧
      (isConstL [(5:ℚ), 5, 5] = false → isConstL [(1:ℚ), 2, 3] = true →
        check_cointegration M0 [5, 5, 5] [1, 2, 3] = .error CoErr.constantInput) ∧
      (isConstL [(5:ℚ), 5, 5] = true → [(5:ℚ), 5, 5].headI = 0 →
        isConstL [(1:ℚ), 2, 3] = false → 4 ≤ [(1:ℚ), 2, 3].length →
        check_cointegration M0 [5, 5, 5] [1, 2, 3]
          = .ok (mackinnonp M0 (M0.stat [1, 2, 3]), 0, [1, 2, 3]))) :=
  ⟨rfl, by decide,
    check_cointegration_degenerate M0 [5, 5, 5] [1, 2, 3] rfl (by decide)⟩

/-- C7: `check_cointegration` is deterministic — it is a pure function of
the values of its input series (which it does not mutate: the source only
rebinds a local name to the output of `sm.add_constant`), so two calls on
identical inputs return identical (p-value, hedge ratio, spread) triples. -/
theorem check_cointegration_deterministic (M : AdfModel) (s1 s2 t1 t2 : List ℚ)
    (h1 : s1 = t1) (h2 : s2 = t2) :
    check_cointegration M s1 s2 = check_cointegration M t1 t2 := by
  rw [h1, h2]

/-- Witness for C7: two calls on (equal) concrete inputs agree. -/
theorem check_cointegration_deterministic_witness :
    ([(1:ℚ), 2] = [(1:ℚ), 2]) ∧ ([(3:ℚ), 4] = [(3:ℚ), 4]) ∧
    check_cointegration M0 [1, 2] [3, 4] = check_cointegration M0 [1, 2] [3, 4] :=
  ⟨rfl, rfl, check_cointegration_deterministic M0 [1, 2] [3, 4] [1, 2] [3, 4] rfl rfl⟩

lemma list_sum_eq_range (l : List ℚ) :
    l.sum = ∑ i in Finset.range l.length, l.getD i 0 := by
  induction l with
  | nil => simp
  | cons x xs ih =>
    rw [List.sum_cons, ih, List.length_cons, Finset.sum_range_succ']
    simp only [List.getD_cons_succ, List.getD_cons_zero]
    ring

lemma list_zipWith_sum_eq_range (f : ℚ → ℚ → ℚ) (A B : List ℚ)
    (hlen : A.length = B.length) :
    (List.zipWith f A B).sum
      = ∑ i in Finset.range A.length, f (A.getD i 0) (B.getD i 0) := by
  induction A generalizing B with
  | nil => simp
  | cons x xs ih =>
    cases B with
    | nil => simp at hlen
    | cons y ys =>
      rw [List.zipWith_cons_cons, List.sum_cons, ih ys (by simpa using hlen),
        List.length_cons, Finset.sum_range_succ']
      simp only [List.getD_cons_succ, List.getD_cons_zero]
      ring

lemma sq_sum_identity (n : ℕ) (a : ℕ → ℚ) :
    (n : ℚ) * ((n : ℚ) * (∑ i in Finset.range n, a i ^ 2)
        - (∑ i in Finset.range n, a i) ^ 2)
      = ∑ i in Finset.range n, ((n : ℚ) * a i - ∑ j in Finset.range n, a j) ^ 2 := by
  have expand : ∀ i ∈ Finset.range n,
      ((n : ℚ) * a i - ∑ j in Finset.range n, a j) ^ 2
        = (n : ℚ) ^ 2 * a i ^ 2
          - 2 * (n : ℚ) * (∑ j in Finset.range n, a j) * a i
          + (∑ j in Finset.range n, a j) ^ 2 := fun i _ => by ring
  rw [Finset.sum_congr rfl expand, Finset.sum_add_distrib, Finset.sum_sub_distrib,
    ← Finset.mul_sum, ← Finset.mul_sum, Finset.sum_const, Finset.card_range,
    nsmul_eq_mul]
  ring

lemma ols_denom_pos (n : ℕ) (a : ℕ → ℚ) (i j : ℕ) (hi : i < n) (hj : j < n)
    (hij : a i ≠ a j) :
    0 < (n : ℚ) * (∑ k in Finset.range n, a k ^ 2)
      - (∑ k in Finset.range n, a k) ^ 2 := by
  have hnq : (0 : ℚ) < n := by
    exact_mod_cast lt_of_le_of_lt (Nat.zero_le i) hi
  have key : ∃ k ∈ Finset.range n,
      ((n : ℚ) * a k - ∑ m in Finset.range n, a m) ≠ 0 := by
    by_contra hall
    push_neg at hall
    have hki := hall i (Finset.mem_range.2 hi)
    have hkj := hall j (Finset.mem_range.2 hj)
    exact hij (mul_left_cancel₀ (ne_of_gt hnq) (by linarith))
  obtain ⟨k, hk, hknz⟩ := key
  have hpos : 0 < ∑ m in Finset.range n, ((n : ℚ) * a m - ∑ l in Finset.range n, a l) ^ 2 :=
    Finset.sum_pos' (fun m _ => sq_nonneg _) ⟨k, hk, pow_two_pos_of_ne_zero hknz⟩
  nlinarith [sq_sum_identity n a, hpos, hnq]

lemma ols_resid_sums (n : ℕ) (a b : ℕ → ℚ) (hh ah : ℚ) (hn : (n : ℚ) ≠ 0)
    (hhh : hh * ((n : ℚ) * (∑ k in Finset.range n, a k ^ 2)
        - (∑ k in Finset.range n, a k) ^ 2)
      = (n : ℚ) * (∑ k in Finset.range n, a k * b k)
        - (∑ k in Finset.range n, a k) * (∑ k in Finset.range n, b k))
    (hah : ah * (n : ℚ)
      = (∑ k in Finset.range n, b k) - hh * (∑ k in Finset.range n, a k)) :
    (∑ i in Finset.range n, (b i - ah - hh * a i)) = 0 ∧
    (∑ i in Finset.range n, a i * (b i - ah - hh * a i)) = 0 := by
  constructor
  · rw [Finset.sum_sub_distrib, Finset.sum_sub_distrib, ← Finset.mul_sum,
      Finset.sum_const, Finset.card_range, nsmul_eq_mul]
    linarith
  · have h2 : ∀ i ∈ Finset.range n, a i * (b i - ah - hh * a i)
        = a i * b i - ah * a i - hh * a i ^ 2 := fun i _ => by ring
    rw [Finset.sum_congr rfl h2, Finset.sum_sub_distrib, Finset.sum_sub_distrib,
      ← Finset.mul_sum, ← Finset.mul_sum]
    have h3 : (n : ℚ) * ((∑ k in Finset.range n, a k * b k)
        - ah * (∑ k in Finset.range n, a k)
        - hh * (∑ k in Finset.range n, a k ^ 2)) = 0 := by
      linear_combination (-1 : ℚ) * hhh - (∑ k in Finset.range n, a k) * hah
    rcases mul_eq_zero.1 h3 with h4 | h4
    · exact absurd h4 hn
    · exact h4

lemma sse_decomp (n : ℕ) (a b : ℕ → ℚ) (hh ah : ℚ)
    (he1 : (∑ i in Finset.range n, (b i - ah - hh * a i)) = 0)
    (he2 : (∑ i in Finset.range n, a i * (b i - ah - hh * a i)) = 0)
    (p q : ℚ) :
    ∑ i in Finset.range n, (b i - p - q * a i) ^ 2
      = (∑ i in Finset.range n, (b i - ah - hh * a i) ^ 2)
        + ∑ i in Finset.range n, ((ah - p) + (hh - q) * a i) ^ 2 := by
  have expand : ∀ i ∈ Finset.range n,
      (b i - p - q * a i) ^ 2
        = (b i - ah - hh * a i) ^ 2 + (((ah - p) + (hh - q) * a i) ^ 2
            + ((2 * (ah - p)) * (b i - ah - hh * a i)
              + (2 * (hh - q)) * (a i * (b i - ah - hh * a i)))) := fun i _ => by ring
  rw [Finset.sum_congr rfl expand, Finset.sum_add_distrib, Finset.sum_add_distrib,
    Finset.sum_add_distrib, ← Finset.mul_sum, ← Finset.mul_sum, he1, he2]
  ring

lemma residSpread_length (h : ℚ) (s1 s2 : List ℚ) (hlen : s1.length = s2.length) :
    (residSpread h s1 s2).length = s1.length := by
  simp [residSpread, List.length_zipWith, hlen]

lemma residSpread_getD (h : ℚ) (s1 s2 : List ℚ) (i : ℕ)
    (hi : i < (residSpread h s1 s2).length) :
    (residSpread h s1 s2).getD i 0 = s2.getD i 0 - h * s1.getD i 0 := by
  have hmin : i < min s2.length s1.length := by
    simpa [residSpread, List.length_zipWith] using hi
  have hi2 : i < s2.length := lt_of_lt_of_le hmin (min_le_left _ _)
  have hi1 : i < s1.length := lt_of_lt_of_le hmin (min_le_right _ _)
  unfold residSpread at hi ⊢
  rw [List.getD_eq_getElem?_getD, List.getElem?_eq_getElem hi, Option.getD_some,
    List.getElem_zipWith,
    List.getD_eq_getElem?_getD s2, List.getElem?_eq_getElem hi2, Option.getD_some,
    List.getD_eq_getElem?_getD s1, List.getElem?_eq_getElem hi1, Option.getD_some]

lemma headI_eq_getD (l : List ℚ) (h : l ≠ []) : l.headI = l.getD 0 0 := by
  cases l
  · exact absurd rfl h
  · rfl

lemma exists_ne_index (s : List ℚ) (hne : s ≠ []) (hc : ¬ isConstL s = true) :
    ∃ i, i < s.length ∧ s.getD i 0 ≠ s.getD 0 0 := by
  rw [isConstL_iff] at hc
  push_neg at hc
  obtain ⟨x, hx, hxne⟩ := hc
  obtain ⟨i, hi, hix⟩ := List.mem_iff_getElem.1 hx
  refine ⟨i, hi, ?_⟩
  have hgi : s.getD i 0 = x := by
    rw [List.getD_eq_getElem?_getD, List.getElem?_eq_getElem hi, Option.getD_some, hix]
  rw [hgi, ← headI_eq_getD s hne]
  exact hxne

/-- C2: whenever `check_cointegration` returns, the hedge ratio is the
slope of the OLS regression of `series2` on `series1` with an intercept
term — it minimises the residual sum of squares together with some
intercept, and whenever `series1` is not constant (precisely when the
regression is well-posed) it is the only slope that does — and the
returned spread is pointwise `series2 - hedgeRatio * series1`, the fitted
intercept not being subtracted.  The only constant `series1` that reaches
a successful return is the all-zero one, where every slope minimises and
the returned hedge ratio is the minimum-norm pseudoinverse slope 0 that
statsmodels reports. -/
theorem check_cointegration_ols_spread (M : AdfModel) (s1 s2 : List ℚ)
    (p : ℝ) (h : ℚ) (sp : List ℚ) (hlen : s1.length = s2.length)
    (hok : check_cointegration M s1 s2 = .ok (p, h, sp)) :
    OlsSpreadSpec s1 s2 h sp := by
  unfold check_cointegration at hok
  by_cases hemp : s1.isEmpty ∨ s2.isEmpty
  · rw [if_pos hemp] at hok
    exact absurd hok (by simp)
  rw [if_neg hemp] at hok
  by_cases hconst : safeIsConst s1 = true
  · rw [if_pos hconst] at hok
    exact absurd hok (by simp)
  rw [if_neg hconst] at hok
  cases hadf : adfuller_p M (residSpread (ols_slope s1 s2) s1 s2) with
  | error e =>
    rw [hadf] at hok
    exact absurd hok (by simp [Except.map])
  | ok pv =>
    rw [hadf] at hok
    simp only [Except.map, Except.ok.injEq, Prod.mk.injEq] at hok
    obtain ⟨hp, hh0, hsp0⟩ := hok
    subst hh0
    subst hsp0
    have hne1 : s1 ≠ [] := fun hcon => hemp (Or.inl (by simp [hcon]))
    have hn0 : 0 < s1.length := List.length_pos.2 hne1
    have hnq : ((s1.length : ℚ)) ≠ 0 := Nat.cast_ne_zero.2 (by omega)
    have hSa : s1.sum = ∑ i in Finset.range s1.length, s1.getD i 0 :=
      list_sum_eq_range s1
    have hSb : s2.sum = ∑ i in Finset.range s1.length, s2.getD i 0 := by
      rw [list_sum_eq_range s2, ← hlen]
    have hdab : dotL s1 s2
        = ∑ i in Finset.range s1.length, s1.getD i 0 * s2.getD i 0 :=
      list_zipWith_sum_eq_range (· * ·) s1 s2 hlen
    have hdaa : dotL s1 s1
        = ∑ i in Finset.range s1.length, s1.getD i 0 ^ 2 := by
      have hzz := list_zipWith_sum_eq_range (· * ·) s1 s1 rfl
      unfold dotL
      rw [hzz]
      exact Finset.sum_congr rfl fun i _ => (pow_two _).symm
    have hsse : ∀ u v : ℚ, sse s1 s2 u v
        = ∑ i in Finset.range s1.length,
            (s2.getD i 0 - u - v * s1.getD i 0) ^ 2 := by
      intro u v
      unfold sse
      rw [list_zipWith_sum_eq_range (fun y x => (y - u - v * x) ^ 2) s2 s1 hlen.symm,
        ← hlen]
    have hslope : ols_slope s1 s2
        * ((s1.length : ℚ) * (∑ k in Finset.range s1.length, s1.getD k 0 ^ 2)
          - (∑ k in Finset.range s1.length, s1.getD k 0) ^ 2)
        = (s1.length : ℚ) * (∑ k in Finset.range s1.length, s1.getD k 0 * s2.getD k 0)
          - (∑ k in Finset.range s1.length, s1.getD k 0)
            * (∑ k in Finset.range s1.length, s2.getD k 0) := by
      by_cases hconst2 : isConstL s1 = true
      · -- the guard passed a constant series1, so it is the all-zero one:
        -- slope, sum and dot product all vanish and both sides are 0
        have h0 : s1.headI = 0 := by
          by_contra h0
          exact hconst (by simp [safeIsConst, hconst2, decide_eq_true h0])
        have hall : ∀ x ∈ s1, x = 0 := fun x hx =>
          ((isConstL_iff s1).1 hconst2 x hx).trans h0
        have hSa0 : (∑ i in Finset.range s1.length, s1.getD i 0) = 0 := by
          rw [← hSa]
          simpa using sum_of_const s1 0 hall
        have hdab0 : (∑ i in Finset.range s1.length, s1.getD i 0 * s2.getD i 0) = 0 := by
          rw [← hdab]
          exact dotL_zero_left s1 hall s2
        rw [ols_slope_zero_left s1 s2 hall, hSa0, hdab0]
        ring
      · obtain ⟨i0, hi0, hne0⟩ := exists_ne_index s1 hne1 hconst2
        have hD : 0 < (s1.length : ℚ)
            * (∑ k in Finset.range s1.length, (fun j => s1.getD j 0) k ^ 2)
            - (∑ k in Finset.range s1.length, (fun j => s1.getD j 0) k) ^ 2 :=
          ols_denom_pos s1.length (fun j => s1.getD j 0) i0 0 hi0 hn0 hne0
        simp only [] at hD
        unfold ols_slope
        rw [hdab, hdaa, hSa, hSb,
          ← pow_two (∑ k in Finset.range s1.length, s1.getD k 0)]
        exact div_mul_cancel₀ _ (ne_of_gt hD)
    have hah : (((∑ k in Finset.range s1.length, s2.getD k 0)
          - ols_slope s1 s2 * (∑ k in Finset.range s1.length, s1.getD k 0))
            / (s1.length : ℚ)) * (s1.length : ℚ)
        = (∑ k in Finset.range s1.length, s2.getD k 0)
          - ols_slope s1 s2 * (∑ k in Finset.range s1.length, s1.getD k 0) :=
      div_mul_cancel₀ _ hnq
    obtain ⟨he1, he2⟩ := ols_resid_sums s1.length (fun j => s1.getD j 0)
      (fun j => s2.getD j 0) (ols_slope s1 s2)
      (((∑ k in Finset.range s1.length, s2.getD k 0)
        - ols_slope s1 s2 * (∑ k in Finset.range s1.length, s1.getD k 0))
          / (s1.length : ℚ)) hnq hslope hah
    unfold OlsSpreadSpec
    refine ⟨residSpread_length _ s1 s2 hlen,
      fun i hi => residSpread_getD _ s1 s2 i hi, ?_, ?_⟩
    · refine ⟨((∑ k in Finset.range s1.length, s2.getD k 0)
        - ols_slope s1 s2 * (∑ k in Finset.range s1.length, s1.getD k 0))
          / (s1.length : ℚ), fun a2 b2 => ?_⟩
      rw [hsse _ (ols_slope s1 s2), hsse a2 b2,
        sse_decomp s1.length (fun j => s1.getD j 0) (fun j => s2.getD j 0)
          (ols_slope s1 s2) _ he1 he2 a2 b2]
      have hq : (0:ℚ) ≤ ∑ i in Finset.range s1.length,
          ((((∑ k in Finset.range s1.length, s2.getD k 0)
            - ols_slope s1 s2 * (∑ k in Finset.range s1.length, s1.getD k 0))
              / (s1.length : ℚ) - a2)
            + (ols_slope s1 s2 - b2) * s1.getD i 0) ^ 2 :=
        Finset.sum_nonneg fun i _ => sq_nonneg _
      linarith
    · intro hconstF a2 b2 hmin
      obtain ⟨i0, hi0, hne0⟩ := exists_ne_index s1 hne1 (by simp [hconstF])
      have hle := hmin (((∑ k in Finset.range s1.length, s2.getD k 0)
        - ols_slope s1 s2 * (∑ k in Finset.range s1.length, s1.getD k 0))
          / (s1.length : ℚ)) (ols_slope s1 s2)
      rw [hsse a2 b2, hsse _ (ols_slope s1 s2),
        sse_decomp s1.length (fun j => s1.getD j 0) (fun j => s2.getD j 0)
          (ols_slope s1 s2) _ he1 he2 a2 b2] at hle
      have hQ0 : ∑ i in Finset.range s1.length,
          ((((∑ k in Finset.range s1.length, s2.getD k 0)
            - ols_slope s1 s2 * (∑ k in Finset.range s1.length, s1.getD k 0))
              / (s1.length : ℚ) - a2)
            + (ols_slope s1 s2 - b2) * s1.getD i 0) ^ 2 = 0 := by
        have hq : (0:ℚ) ≤ ∑ i in Finset.range s1.length,
            ((((∑ k in Finset.range s1.length, s2.getD k 0)
              - ols_slope s1 s2 * (∑ k in Finset.range s1.length, s1.getD k 0))
                / (s1.length : ℚ) - a2)
              + (ols_slope s1 s2 - b2) * s1.getD i 0) ^ 2 :=
          Finset.sum_nonneg fun i _ => sq_nonneg _
        linarith
      have hall := (Finset.sum_eq_zero_iff_of_nonneg fun i _ => sq_nonneg _).1 hQ0
      have hz1 := hall i0 (Finset.mem_range.2 hi0)
      have hz2 := hall 0 (Finset.mem_range.2 hn0)
      have hzz1 := (pow_eq_zero_iff (by norm_num : (2:ℕ) ≠ 0)).1 hz1
      have hzz2 := (pow_eq_zero_iff (by norm_num : (2:ℕ) ≠ 0)).1 hz2
      have hfac : (ols_slope s1 s2 - b2) * (s1.getD i0 0 - s1.getD 0 0) = 0 := by
        linear_combination hzz1 - hzz2
      rcases mul_eq_zero.1 hfac with hf | hf
      · linarith
      · exact absurd (sub_eq_zero.1 hf) hne0

lemma isConstL_eq_false_of (l : List ℚ) (x : ℚ) (hx : x ∈ l)
    (hne : x ≠ l.headI) : isConstL l = false := by
  rw [Bool.eq_false_iff]
  intro hc
  exact hne ((isConstL_iff l).1 hc x hx)

/-- Witness for C2 at a concrete successful call: slope `3/5`, spread
`series2 - (3/5) * series1`. -/
theorem check_cointegration_ols_spread_witness :
    ([(1:ℚ), 2, 3, 4].length = [(2:ℚ), 1, 4, 3].length) ∧
    check_cointegration M0 [1, 2, 3, 4] [2, 1, 4, 3]
      = .ok ((0:ℝ), 3/5, [7/5, -1/5, 11/5, 3/5]) ∧
    OlsSpreadSpec [1, 2, 3, 4] [2, 1, 4, 3] (3/5) [7/5, -1/5, 11/5, 3/5] := by
  have hslope : ols_slope [(1:ℚ), 2, 3, 4] [(2:ℚ), 1, 4, 3] = 3/5 := by
    norm_num [ols_slope, dotL]
  have hsp : residSpread (3/5) [(1:ℚ), 2, 3, 4] [(2:ℚ), 1, 4, 3]
      = [7/5, -1/5, 11/5, 3/5] := by norm_num [residSpread]
  have hconstsp : isConstL [(7:ℚ)/5, -1/5, 11/5, 3/5] = false :=
    isConstL_eq_false_of _ (-1/5) (by norm_num) (by norm_num [List.headI])
  have hok : check_cointegration M0 [(1:ℚ), 2, 3, 4] [(2:ℚ), 1, 4, 3]
      = .ok ((0:ℝ), 3/5, [7/5, -1/5, 11/5, 3/5]) := by
    unfold check_cointegration
    rw [if_neg (by simp), if_neg (by decide)]
    simp only [hslope, hsp]
    unfold adfuller_p
    rw [if_neg (by simp [hconstsp]), if_neg (by norm_num)]
    norm_num [mackinnonp, tauMaxC, tauMinC, M0, Except.map]
  exact ⟨rfl, hok,
    check_cointegration_ols_spread M0 [1, 2, 3, 4] [2, 1, 4, 3] 0 (3/5)
      [7/5, -1/5, 11/5, 3/5] rfl hok⟩

lemma stdNormCdf_nonneg (q : ℚ) : 0 ≤ stdNormCdf q :=
  ENNReal.toReal_nonneg

lemma stdNormCdf_le_one (q : ℚ) : stdNormCdf q ≤ 1 := by
  unfold stdNormCdf
  have h : (ProbabilityTheory.gaussianReal 0 1) (Set.Iic (q : ℝ)) ≤ 1 :=
    MeasureTheory.prob_le_one
  simpa using ENNReal.toReal_mono ENNReal.one_ne_top h

lemma mackinnonp_mem (M : AdfModel)
    (hM : ∀ q : ℚ, 0 ≤ M.normCdf q ∧ M.normCdf q ≤ 1) (stat : ℚ) :
    0 ≤ mackinnonp M stat ∧ mackinnonp M stat ≤ 1 := by
  unfold mackinnonp
  split_ifs
  · norm_num
  · norm_num
  · exact hM _

/-- C8 counterexample: the pair seriesA = seriesB = [1, 2, 3, 4] is a
valid, non-degenerate, equal-length pair (the second conjunct shows the
series is not constant), yet `check_cointegration` does not return a
p-value and a spread: the hedge ratio is exactly 1, the spread is
identically zero, and the ADF test raises its constant-input error. -/
theorem check_cointegration_pvalue_counterexample :
    check_cointegration M0 [1, 2, 3, 4] [1, 2, 3, 4] = .error CoErr.constantInput ∧
    isConstL [(1:ℚ), 2, 3, 4] = false := by
  have hslope : ols_slope [(1:ℚ), 2, 3, 4] [(1:ℚ), 2, 3, 4] = 1 := by
    norm_num [ols_slope, dotL]
  have hsp : residSpread 1 [(1:ℚ), 2, 3, 4] [(1:ℚ), 2, 3, 4] = [0, 0, 0, 0] := by
    norm_num [residSpread]
  refine ⟨?_, by decide⟩
  unfold check_cointegration
  rw [if_neg (by simp), if_neg (by decide)]
  simp only [hslope, hsp]
  unfold adfuller_p
  rw [if_pos (by decide)]
  rfl

/-- C8 amended: for every valid pair of equal-length series with
`series1` non-constant, provided additionally that the resulting spread
`series2 - hedgeRatio * series1` is not constant and the series have at
least 4 points (otherwise the ADF test raises), and given that the
numeric normal CDF takes values in `[0, 1]` (true of the Gaussian CDF,
`stdNormCdf`), `check_cointegration` returns a p-value in `[0, 1]` and a
spread whose length is that of the inputs. -/
theorem check_cointegration_pvalue (M : AdfModel)
    (hM : ∀ q : ℚ, 0 ≤ M.normCdf q ∧ M.normCdf q ≤ 1) (s1 s2 : List ℚ)
    (hlen : s1.length = s2.length) (hne : s1 ≠ [])
    (hc1 : isConstL s1 = false)
    (hcsp : isConstL (residSpread (ols_slope s1 s2) s1 s2) = false)
    (hlen4 : 4 ≤ s1.length) :
    PValueSpec M s1 s2 := by
  have hne1 : s1.isEmpty = false := by
    cases s1
    · exact absurd rfl hne
    · rfl
  have hne2 : s2.isEmpty = false := by
    cases s2
    · rw [List.length_nil] at hlen
      omega
    · rfl
  have hsplen : (residSpread (ols_slope s1 s2) s1 s2).length = s1.length :=
    residSpread_length _ s1 s2 hlen
  have hlenA : ¬ ((residSpread (ols_slope s1 s2) s1 s2).length ≤ 3) := by omega
  have hval : check_cointegration M s1 s2
      = .ok (mackinnonp M (M.stat (residSpread (ols_slope s1 s2) s1 s2)),
          ols_slope s1 s2, residSpread (ols_slope s1 s2) s1 s2) := by
    unfold check_cointegration adfuller_p
    rw [if_neg (by simp [hne1, hne2]), if_neg (by simp [safeIsConst, hc1]),
      if_neg (by simp [hcsp]), if_neg hlenA]
    rfl
  exact ⟨_, _, hval, (mackinnonp_mem M hM _).1, (mackinnonp_mem M hM _).2, hsplen⟩

/-- Witness for the amended C8 at a concrete input, with the genuine
Gaussian CDF. -/
theorem check_cointegration_pvalue_witness :
    PValueSpec Mgauss [1, 2, 3, 4] [2, 1, 4, 3] := by
  have hslope : ols_slope [(1:ℚ), 2, 3, 4] [(2:ℚ), 1, 4, 3] = 3/5 := by
    norm_num [ols_slope, dotL]
  have hsp : residSpread (3/5) [(1:ℚ), 2, 3, 4] [(2:ℚ), 1, 4, 3]
      = [7/5, -1/5, 11/5, 3/5] := by norm_num [residSpread]
  exact check_cointegration_pvalue Mgauss
    (fun q => ⟨stdNormCdf_nonneg q, stdNormCdf_le_one q⟩)
    [1, 2, 3, 4] [2, 1, 4, 3] rfl (by decide) (by decide)
    (by
      rw [hslope, hsp]
      exact isConstL_eq_false_of _ (-1/5) (by norm_num) (by norm_num [List.headI]))
    (by norm_num)

end PairsBot
